import Mathlib

/-!
# Copy versus pointer semantics of `User` in `main.go`

A shallow embedding of `src/main.go`.  The Go program passes a `User` struct
either by value (the callee works on a copy of the struct) or by pointer (the
callee works on the caller's variable).  The struct holds a slice header and a
map reference, so a copy of the struct shares the backing array of `Tags` and
the map object of `Meta` with the original.  To express this the embedding
carries an explicit heap:

* `Heap.arrays` : the backing arrays of slices, addressed by position;
* `Heap.maps`   : the map objects, addressed by position;
* `Heap.users`  : the `User` variables whose address is taken (`&user`).

A slice is the Go slice header (data pointer, length, capacity); a map value is
a reference that may be nil.  Run-time panics of Go are results `Except.error`.
The growth policy of `append` is left to the Go runtime by the language; it is
a parameter `grow` of the embedding (the new capacity is at least the new
length, whatever `grow` answers).
-/

namespace TryGo

/-- Run-time failures of the Go program. -/
inductive Fault where
  /-- Dereference of a nil pointer. -/
  | nilDeref
  /-- Assignment to an entry of a nil map. -/
  | nilMapWrite
  /-- Access outside the heap; Go is memory safe, so this is never produced from
  a well-formed state. -/
  | badAddr
  deriving DecidableEq, Repr

/-- Go slice header of a `[]string`: data pointer (backing array and offset in
it; `arr = none` is the nil pointer), length and capacity. -/
structure Slice where
  arr : Option Nat
  off : Nat
  len : Nat
  cap : Nat
  deriving DecidableEq, Repr

/-- The nil slice, zero value of `[]string`. -/
def nilSlice : Slice := ⟨none, 0, 0, 0⟩

/-- `type User struct { ID int; Name string; Tags []string; Meta map[string]string }`.
`Meta = none` is the nil map, `some m` a reference to the map object `m`. -/
structure User where
  ID : Int
  Name : String
  Tags : Slice
  Meta : Option Nat
  deriving DecidableEq, Repr

/-- The memory reachable from the program. -/
structure Heap where
  arrays : List (List String)
  maps : List (List (String × String))
  users : List User
  deriving DecidableEq, Repr

/-! ## Go built-ins -/

/-- `m[k] = v` on the entries of a map object: the value of an existing key is
replaced, a new key gets a new entry. -/
def mapInsert (k v : String) : List (String × String) → List (String × String)
  | [] => [(k, v)]
  | (k', v') :: t => if k' = k then (k, v) :: t else (k', v') :: mapInsert k v t

/-- `m[k]` on the entries of a map object. -/
def mapLookup (k : String) : List (String × String) → Option String
  | [] => none
  | (k', v') :: t => if k' = k then some v' else mapLookup k t

/-- The elements `s[0], …, s[len-1]` of a slice. -/
def sliceElems (h : Heap) (s : Slice) : List String :=
  match s.arr with
  | none => []
  | some a => ((h.arrays.getD a []).drop s.off).take s.len

/-- The entries of the map a reference denotes; a nil map reads as empty. -/
def metaEntries (h : Heap) (m : Option Nat) : List (String × String) :=
  match m with
  | none => []
  | some a => h.maps.getD a []

/-- `append(s, x)` for one element.  With spare capacity the element is written
into the backing array right after the last element and the header only grows
in length; otherwise a new backing array is allocated, the elements are copied
and `x` is written after them. -/
def goAppend (grow : Nat → Nat) (h : Heap) (s : Slice) (x : String) :
    Except Fault (Heap × Slice) :=
  if s.len < s.cap then
    match s.arr with
    | none => .error .nilDeref
    | some a =>
      match h.arrays[a]? with
      | none => .error .badAddr
      | some cells =>
        if s.off + s.len < cells.length then
          .ok ({ h with arrays := h.arrays.set a (cells.set (s.off + s.len) x) },
               { s with len := s.len + 1 })
        else .error .badAddr
  else
    let newcap := max (s.len + 1) (grow s.cap)
    let cells := sliceElems h s ++ x :: List.replicate (newcap - (s.len + 1)) ""
    .ok ({ h with arrays := h.arrays ++ [cells] },
         ⟨some h.arrays.length, 0, s.len + 1, newcap⟩)

/-- `make(map[string]string)`: a fresh empty map object and the reference to it. -/
def makeMap (h : Heap) : Heap × Nat :=
  ({ h with maps := h.maps ++ [[]] }, h.maps.length)

/-- `m[key] = value` through a map reference; panics on the nil map. -/
def mapAssign (h : Heap) (m : Option Nat) (key value : String) : Except Fault Heap :=
  match m with
  | none => .error .nilMapWrite
  | some a =>
    match h.maps[a]? with
    | none => .error .badAddr
    | some entries => .ok { h with maps := h.maps.set a (mapInsert key value entries) }

/-- Read `*p`. -/
def load (h : Heap) (p : Option Nat) : Except Fault User :=
  match p with
  | none => .error .nilDeref
  | some a =>
    match h.users[a]? with
    | none => .error .badAddr
    | some u => .ok u

/-- Write `*p = u`. -/
def store (h : Heap) (p : Option Nat) (u : User) : Except Fault Heap :=
  match p with
  | none => .error .nilDeref
  | some a =>
    if a < h.users.length then .ok { h with users := h.users.set a u }
    else .error .badAddr

/-! ## The six operations of `main.go`

A by-value operation receives the struct `u` as its own local variable.  Its
`Local` form returns the heap and that local variable at the end of the body;
the operation itself returns the heap only, the local variable being dropped
on return.  A by-pointer operation receives the address `p` of a `User`
variable in the heap. -/

/-- Body of `RenameByValue`: `u.Name = name` on the parameter. -/
def RenameByValueLocal (h : Heap) (u : User) (name : String) : Except Fault (Heap × User) :=
  .ok (h, { u with Name := name })

/-- `func RenameByValue(u User, name string)`. -/
def RenameByValue (h : Heap) (u : User) (name : String) : Except Fault Heap :=
  (RenameByValueLocal h u name).map Prod.fst

/-- `func RenameByPointer(u *User, name string)`: `u.Name = name`. -/
def RenameByPointer (h : Heap) (p : Option Nat) (name : String) : Except Fault Heap := do
  let u ← load h p
  store h p { u with Name := name }

/-- Body of `AddTagByValue`: `u.Tags = append(u.Tags, tag)` on the parameter. -/
def AddTagByValueLocal (grow : Nat → Nat) (h : Heap) (u : User) (tag : String) :
    Except Fault (Heap × User) := do
  let (h1, s) ← goAppend grow h u.Tags tag
  pure (h1, { u with Tags := s })

/-- `func AddTagByValue(u User, tag string)`. -/
def AddTagByValue (grow : Nat → Nat) (h : Heap) (u : User) (tag : String) :
    Except Fault Heap :=
  (AddTagByValueLocal grow h u tag).map Prod.fst

/-- `func AddTagByPointer(u *User, tag string)`: `u.Tags = append(u.Tags, tag)`. -/
def AddTagByPointer (grow : Nat → Nat) (h : Heap) (p : Option Nat) (tag : String) :
    Except Fault Heap := do
  let u ← load h p
  let (h1, s) ← goAppend grow h u.Tags tag
  let u1 ← load h1 p
  store h1 p { u1 with Tags := s }

/-- Lines 35-37 of `AddMetaByValue`: `if u.Meta == nil { u.Meta = make(...) }`
on the parameter. -/
def ensureMetaLocal (h : Heap) (u : User) : Heap × User :=
  match u.Meta with
  | none => ((makeMap h).1, { u with Meta := some (makeMap h).2 })
  | some _ => (h, u)

/-- Body of `AddMetaByValue`: allocate the map of the parameter when it is nil,
then `u.Meta[key] = value`. -/
def AddMetaByValueLocal (h : Heap) (u : User) (key value : String) :
    Except Fault (Heap × User) := do
  let (h1, u1) := ensureMetaLocal h u
  let h2 ← mapAssign h1 u1.Meta key value
  pure (h2, u1)

/-- `func AddMetaByValue(u User, key, value string)`. -/
def AddMetaByValue (h : Heap) (u : User) (key value : String) : Except Fault Heap :=
  (AddMetaByValueLocal h u key value).map Prod.fst

/-- Lines 43-45 of `AddMetaByPointer`: `if u.Meta == nil { u.Meta = make(...) }`
through the pointer. -/
def ensureMetaPtr (h : Heap) (p : Option Nat) : Except Fault Heap := do
  let u ← load h p
  match u.Meta with
  | none => store (makeMap h).1 p { u with Meta := some (makeMap h).2 }
  | some _ => pure h

/-- `func AddMetaByPointer(u *User, key, value string)`: allocate the map of
`*u` when it is nil, then `u.Meta[key] = value`. -/
def AddMetaByPointer (h : Heap) (p : Option Nat) (key value : String) :
    Except Fault Heap := do
  let h1 ← ensureMetaPtr h p
  let u1 ← load h1 p
  mapAssign h1 u1.Meta key value

/-! ## Observation of a record -/

/-- What a caller sees of a record: its scalar fields, the elements of `Tags`
and the entries of `Meta` (`none` for the nil map). -/
structure Observed where
  ID : Int
  Name : String
  Tags : List String
  Meta : Option (List (String × String))
  deriving DecidableEq, Repr

/-- The record `u` as seen in heap `h`. -/
def observe (h : Heap) (u : User) : Observed :=
  { ID := u.ID, Name := u.Name, Tags := sliceElems h u.Tags,
    Meta := u.Meta.map fun a => h.maps.getD a [] }

/-- The record stored at address `a`, as seen in heap `h`. -/
def observeAt (h : Heap) (a : Nat) : Option Observed :=
  (h.users[a]?).map (observe h)

/-- `u.Meta[k]` read on a record; a nil map has no entry. -/
def metaLookup (h : Heap) (u : User) (k : String) : Option String :=
  mapLookup k (metaEntries h u.Meta)

/-! ## The driver -/

/-- The heap of `main` after `user := User{ID: 1, Name: "Alice"}`; the variable
`user` is at address 0. -/
def initHeap : Heap :=
  { arrays := [], maps := [], users := [⟨1, "Alice", nilSlice, none⟩] }

/-- Address of the variable `user` of `main`. -/
def userAddr : Option Nat := some 0

/-- The fixed sequence of `main`.  The result lists the record as printed by
the seven state prints: the initial state and the state after each of the six
calls. -/
def main (grow : Nat → Nat) : Except Fault (List Observed) := do
  let h0 := initHeap
  let u0 ← load h0 userAddr
  let h1 ← RenameByValue h0 u0 "Bob"
  let u1 ← load h1 userAddr
  let h2 ← RenameByPointer h1 userAddr "Charlie"
  let u2 ← load h2 userAddr
  let h3 ← AddTagByValue grow h2 u2 "golang"
  let u3 ← load h3 userAddr
  let h4 ← AddTagByPointer grow h3 userAddr "programmer"
  let u4 ← load h4 userAddr
  let h5 ← AddMetaByValue h4 u4 "role" "admin"
  let u5 ← load h5 userAddr
  let h6 ← AddMetaByPointer h5 userAddr "department" "engineering"
  let u6 ← load h6 userAddr
  pure [observe h0 u0, observe h1 u1, observe h2 u2, observe h3 u3,
        observe h4 u4, observe h5 u5, observe h6 u6]

/-! ## Well-formed states -/

/-- A slice header is well formed in a heap: the length is within the capacity,
a nil data pointer comes with capacity zero, and otherwise the capacity lies
within the backing array. -/
def Slice.WF (h : Heap) (s : Slice) : Prop :=
  s.len ≤ s.cap ∧
    match s.arr with
    | none => s.cap = 0
    | some a => a < h.arrays.length ∧ s.off + s.cap ≤ (h.arrays.getD a []).length

/-- A record is well formed in a heap: its slice is, and its map reference is
nil or denotes a map object of the heap, whose keys are unique. -/
def User.WF (h : Heap) (u : User) : Prop :=
  u.Tags.WF h ∧
    match u.Meta with
    | none => True
    | some m => m < h.maps.length ∧ ((h.maps.getD m []).map Prod.fst).Nodup

/-- The pointer `p` is a valid non-nil reference to the well-formed record `u`. -/
def PointsTo (h : Heap) (p : Option Nat) (u : User) : Prop :=
  (match p with
    | none => False
    | some a => h.users[a]? = some u) ∧ u.WF h

/-! ## Sample states -/

/-- A record whose `Tags` has one element and spare capacity for two more, and
whose `Meta` is allocated with one entry. -/
def sampleUser : User := ⟨7, "Dana", ⟨some 0, 0, 1, 3⟩, some 0⟩

/-- A heap holding `sampleUser` in the variable at address 0. -/
def sampleHeap : Heap :=
  { arrays := [["go", "", ""]], maps := [[("team", "core")]], users := [sampleUser] }

/-- The record `main` starts from: `User{ID: 1, Name: "Alice"}`. -/
def aliceUser : User := ⟨1, "Alice", nilSlice, none⟩

/-! ## Lemmas on lists and on map entries -/

theorem set_getElem_same {α : Type} (l : List α) (n : Nat) (hn : n < l.length) :
    l.set n l[n] = l := by
  apply List.ext_getElem?
  intro i
  rw [List.getElem?_set]
  split
  · next heq =>
    subst heq
    simp [hn]
  · rfl

theorem getElem_append_two {α : Type} (l : List α) (x y : α)
    (hlt : l.length + 1 < (l ++ [x, y]).length) : (l ++ [x, y])[l.length + 1] = y := by
  induction l with
  | nil => rfl
  | cons a t ih => simpa using ih (by simp)

theorem take_set_at (l : List String) (n : Nat) (x : String) :
    (l.set n x).take n = l.take n := by
  apply List.ext_getElem?
  intro i
  rw [List.getElem?_take, List.getElem?_take]
  split
  · rw [List.getElem?_set_ne (by omega)]
  · rfl

theorem take_drop_set_at (cells : List String) (off len : Nat) (x : String) :
    ((cells.set (off + len) x).drop off).take len = (cells.drop off).take len := by
  rw [← List.set_drop, take_set_at]

theorem take_succ_drop_set_at (cells : List String) (off len : Nat) (x : String)
    (hlt : off + len < cells.length) :
    ((cells.set (off + len) x).drop off).take (len + 1) = (cells.drop off).take len ++ [x] := by
  have hlen : len < (cells.drop off).length := by
    rw [List.length_drop]
    omega
  rw [← List.set_drop, List.take_add_one, take_set_at, List.getElem?_set_self hlen]
  rfl

theorem take_succ_append_cons (e : List String) (x : String) (r : List String) :
    (e ++ x :: r).take (e.length + 1) = e ++ [x] := by
  induction e with
  | nil => simp
  | cons a t ih => simpa using ih

theorem mapLookup_mapInsert_self (k v : String) (l : List (String × String)) :
    mapLookup k (mapInsert k v l) = some v := by
  induction l with
  | nil => simp [mapInsert, mapLookup]
  | cons e t ih =>
    obtain ⟨k', v'⟩ := e
    by_cases hk : k' = k <;> simp [mapInsert, mapLookup, hk, ih]

theorem mapLookup_mapInsert_ne (k v k2 : String) (l : List (String × String)) (hne : k2 ≠ k) :
    mapLookup k2 (mapInsert k v l) = mapLookup k2 l := by
  induction l with
  | nil => simp [mapInsert, mapLookup, Ne.symm hne]
  | cons e t ih =>
    obtain ⟨k', v'⟩ := e
    by_cases hk : k' = k
    · subst hk
      simp [mapInsert, mapLookup, Ne.symm hne]
    · by_cases hk2 : k' = k2
      · subst hk2
        simp [mapInsert, mapLookup, hk]
      · simp [mapInsert, mapLookup, hk, hk2, ih]

theorem mapInsert_idem (k v : String) (l : List (String × String)) :
    mapInsert k v (mapInsert k v l) = mapInsert k v l := by
  induction l with
  | nil => simp [mapInsert]
  | cons e t ih =>
    obtain ⟨k', v'⟩ := e
    by_cases hk : k' = k <;> simp [mapInsert, hk, ih]

theorem mapInsert_of_lookup (k v : String) (l : List (String × String))
    (hl : mapLookup k l = some v) : mapInsert k v l = l := by
  induction l with
  | nil => simp [mapLookup] at hl
  | cons e t ih =>
    obtain ⟨k', v'⟩ := e
    by_cases hk : k' = k
    · simp [mapLookup, hk] at hl
      simp [mapInsert, hk, hl]
    · simp [mapLookup, hk] at hl
      simp [mapInsert, hk, ih hl]

theorem mapInsert_ne_of_lookup (k v : String) (l : List (String × String))
    (hl : mapLookup k l ≠ some v) : mapInsert k v l ≠ l := by
  intro heq
  apply hl
  rw [← heq]
  exact mapLookup_mapInsert_self k v l

theorem mem_keys_mapInsert (k v k2 : String) (l : List (String × String)) :
    k2 ∈ (mapInsert k v l).map Prod.fst ↔ k2 = k ∨ k2 ∈ l.map Prod.fst := by
  induction l with
  | nil => simp [mapInsert]
  | cons e t ih =>
    obtain ⟨k', v'⟩ := e
    by_cases hk : k' = k
    · subst hk
      simp [mapInsert]
    · simp only [mapInsert, hk, if_false, List.map_cons, List.mem_cons, ih]
      tauto

theorem nodup_keys_mapInsert (k v : String) (l : List (String × String))
    (hl : (l.map Prod.fst).Nodup) : ((mapInsert k v l).map Prod.fst).Nodup := by
  induction l with
  | nil => simp [mapInsert]
  | cons e t ih =>
    obtain ⟨k', v'⟩ := e
    simp only [List.map_cons, List.nodup_cons] at hl
    by_cases hk : k' = k
    · subst hk
      simpa [mapInsert] using hl
    · simp only [mapInsert, hk, if_false, List.map_cons, List.nodup_cons, mem_keys_mapInsert]
      exact ⟨by simpa using hl.1, ih hl.2⟩


/-! ## Specifications of the built-ins -/

theorem sliceElems_length (h : Heap) (s : Slice) (hs : s.WF h) :
    (sliceElems h s).length = s.len := by
  obtain ⟨arr, off, len, cap⟩ := s
  obtain ⟨hle, harr⟩ := hs
  cases arr with
  | none =>
    simp only at hle harr
    simp only [sliceElems, List.length_nil]
    omega
  | some a =>
    simp only at hle harr
    simp only [sliceElems, List.length_take, List.length_drop]
    omega

theorem goAppend_spec (grow : Nat → Nat) (h : Heap) (s : Slice) (x : String) (hs : s.WF h) :
    ∃ h1 s1, goAppend grow h s x = .ok (h1, s1) ∧ h1.maps = h.maps ∧ h1.users = h.users ∧
      sliceElems h1 s1 = sliceElems h s ++ [x] ∧ sliceElems h1 s = sliceElems h s ∧
      s1.WF h1 ∧ s.WF h1 := by
  have hlen := sliceElems_length h s hs
  obtain ⟨arr, off, len, cap⟩ := s
  obtain ⟨hle, harr⟩ := hs
  simp only at hle harr hlen
  by_cases hroom : len < cap
  · cases arr with
    | none =>
      simp only at harr
      omega
    | some a =>
      simp only at harr
      obtain ⟨ha, hcap⟩ := harr
      have hget : h.arrays[a]? = some h.arrays[a] := List.getElem?_eq_getElem ha
      have hgetD : h.arrays.getD a [] = h.arrays[a] := List.getD_eq_getElem _ _ ha
      rw [hgetD] at hcap
      have hwr : off + len < h.arrays[a].length := by omega
      refine ⟨{ h with arrays := h.arrays.set a (h.arrays[a].set (off + len) x) },
        ⟨some a, off, len + 1, cap⟩, ?_, rfl, rfl, ?_, ?_, ?_, ?_⟩
      · simp [goAppend, hroom, hget, hwr]
      · simp only [sliceElems, hgetD]
        rw [List.getD_eq_getElem _ _ (by simpa using ha)]
        simp only [List.getElem_set_self]
        exact take_succ_drop_set_at _ _ _ _ hwr
      · simp only [sliceElems, hgetD]
        rw [List.getD_eq_getElem _ _ (by simpa using ha)]
        simp only [List.getElem_set_self]
        exact take_drop_set_at _ _ _ _
      · refine ⟨by simp only; omega, ?_⟩
        simp only [List.length_set]
        refine ⟨ha, ?_⟩
        rw [List.getD_eq_getElem _ _ (by simpa using ha)]
        simpa using hcap
      · refine ⟨hle, ?_⟩
        simp only [List.length_set]
        refine ⟨ha, ?_⟩
        rw [List.getD_eq_getElem _ _ (by simpa using ha)]
        simpa using hcap
  · refine ⟨{ h with arrays := h.arrays ++
        [sliceElems h ⟨arr, off, len, cap⟩ ++
          x :: List.replicate (max (len + 1) (grow cap) - (len + 1)) ""] },
      ⟨some h.arrays.length, 0, len + 1, max (len + 1) (grow cap)⟩, ?_, rfl, rfl, ?_, ?_, ?_, ?_⟩
    · simp [goAppend, hroom]
    · generalize sliceElems h ⟨arr, off, len, cap⟩ = e at hlen ⊢
      simp only [sliceElems, List.drop_zero]
      rw [List.getD_append_right _ _ _ _ (le_refl _)]
      simp only [Nat.sub_self, List.getD_cons_zero]
      rw [← hlen]
      exact take_succ_append_cons e x _
    · cases arr with
      | none => rfl
      | some a =>
        simp only at harr
        simp only [sliceElems]
        rw [List.getD_append _ _ _ _ harr.1]
    · refine ⟨by simp only; omega, ?_⟩
      simp only [List.length_append, List.length_singleton]
      refine ⟨by omega, ?_⟩
      rw [List.getD_append_right _ _ _ _ (le_refl _)]
      simp only [Nat.sub_self, List.getD_cons_zero, List.length_append, List.length_cons,
        List.length_replicate, hlen]
      omega
    · refine ⟨hle, ?_⟩
      cases arr with
      | none => simpa using harr
      | some a =>
        simp only at harr
        simp only [List.length_append, List.length_singleton]
        refine ⟨by omega, ?_⟩
        rw [List.getD_append _ _ _ _ harr.1]
        exact harr.2

/-! ## Exact results of the operations -/

theorem pointsTo_addr {h : Heap} {p : Option Nat} {u : User} (hp : PointsTo h p u) :
    ∃ a, p = some a ∧ h.users[a]? = some u ∧ a < h.users.length ∧ u.WF h := by
  obtain ⟨hp1, hwf⟩ := hp
  cases p with
  | none => exact hp1.elim
  | some a =>
    have hu : h.users[a]? = some u := hp1
    refine ⟨a, rfl, hu, ?_, hwf⟩
    by_contra hge
    rw [List.getElem?_eq_none (Nat.le_of_not_lt hge)] at hu
    cases hu

theorem load_set (h : Heap) (a : Nat) (u : User) (arrays : List (List String))
    (maps : List (List (String × String))) (ha : a < h.users.length) :
    load { arrays := arrays, maps := maps, users := h.users.set a u } (some a) = .ok u := by
  simp [load, ha]

theorem RenameByValue_eq (h : Heap) (u : User) (name : String) :
    RenameByValue h u name = .ok h := rfl

theorem RenameByPointer_eq (h : Heap) (a : Nat) (u : User) (name : String)
    (hu : h.users[a]? = some u) (ha : a < h.users.length) :
    RenameByPointer h (some a) name =
      .ok { h with users := h.users.set a { u with Name := name } } := by
  simp [RenameByPointer, load, store, hu, ha, bind, Except.bind]

theorem AddTagByValue_eq (grow : Nat → Nat) (h h1 : Heap) (u : User) (tag : String) (s1 : Slice)
    (happ : goAppend grow h u.Tags tag = .ok (h1, s1)) :
    AddTagByValueLocal grow h u tag = .ok (h1, { u with Tags := s1 }) ∧
      AddTagByValue grow h u tag = .ok h1 := by
  simp [AddTagByValue, AddTagByValueLocal, happ, bind, Except.bind, pure, Except.pure, Except.map]

theorem AddTagByPointer_eq (grow : Nat → Nat) (h h1 : Heap) (a : Nat) (u : User) (tag : String)
    (s1 : Slice) (hu : h.users[a]? = some u) (ha : a < h.users.length)
    (happ : goAppend grow h u.Tags tag = .ok (h1, s1)) (husers : h1.users = h.users) :
    AddTagByPointer grow h (some a) tag =
      .ok { h1 with users := h1.users.set a { u with Tags := s1 } } := by
  simp [AddTagByPointer, load, store, hu, ha, happ, husers, bind, Except.bind]

theorem AddMetaByValue_nil (h : Heap) (u : User) (key value : String) (hm : u.Meta = none) :
    AddMetaByValueLocal h u key value =
        .ok ({ h with maps := h.maps ++ [[(key, value)]] },
             { u with Meta := some h.maps.length }) ∧
      AddMetaByValue h u key value = .ok { h with maps := h.maps ++ [[(key, value)]] } := by
  simp [AddMetaByValue, AddMetaByValueLocal, ensureMetaLocal, makeMap, mapAssign, mapInsert, hm,
    bind, Except.bind, pure, Except.pure, Except.map]

theorem AddMetaByValue_some (h : Heap) (u : User) (key value : String) (m : Nat)
    (hm : u.Meta = some m) (hlt : m < h.maps.length) :
    AddMetaByValueLocal h u key value =
        .ok ({ h with maps := h.maps.set m (mapInsert key value h.maps[m]) }, u) ∧
      AddMetaByValue h u key value =
        .ok { h with maps := h.maps.set m (mapInsert key value h.maps[m]) } := by
  simp [AddMetaByValue, AddMetaByValueLocal, ensureMetaLocal, mapAssign, hm, hlt,
    bind, Except.bind, pure, Except.pure, Except.map]

theorem AddMetaByPointer_nil (h : Heap) (a : Nat) (u : User) (key value : String)
    (hu : h.users[a]? = some u) (ha : a < h.users.length) (hm : u.Meta = none) :
    AddMetaByPointer h (some a) key value =
      .ok { arrays := h.arrays, maps := h.maps ++ [[(key, value)]],
            users := h.users.set a { u with Meta := some h.maps.length } } := by
  simp [AddMetaByPointer, ensureMetaPtr, load, store, makeMap, mapAssign, mapInsert, hu, ha, hm,
    bind, Except.bind, pure, Except.pure]

theorem AddMetaByPointer_some (h : Heap) (a : Nat) (u : User) (key value : String) (m : Nat)
    (hu : h.users[a]? = some u) (hm : u.Meta = some m) (hlt : m < h.maps.length) :
    AddMetaByPointer h (some a) key value =
      .ok { h with maps := h.maps.set m (mapInsert key value h.maps[m]) } := by
  simp [AddMetaByPointer, ensureMetaPtr, load, mapAssign, hu, hm, hlt,
    bind, Except.bind, pure, Except.pure]

theorem sample_pointsTo : PointsTo sampleHeap (some 0) sampleUser := by
  simp [PointsTo, User.WF, Slice.WF, sampleHeap, sampleUser]

theorem alice_pointsTo : PointsTo initHeap userAddr aliceUser := by
  simp [PointsTo, User.WF, Slice.WF, initHeap, userAddr, aliceUser, nilSlice]

theorem metaLookup_some (h : Heap) (u : User) (m : Nat) (k : String) (hm : u.Meta = some m)
    (hlt : m < h.maps.length) : metaLookup h u k = mapLookup k h.maps[m] := by
  simp [metaLookup, metaEntries, hm, hlt]

theorem AddTagByPointer_result (grow : Nat → Nat) (h : Heap) (a : Nat) (u : User) (tag : String)
    (hu : h.users[a]? = some u) (ha : a < h.users.length) (hwf : u.WF h) :
    ∃ h' s', AddTagByPointer grow h (some a) tag = .ok h' ∧
      load h' (some a) = .ok { u with Tags := s' } ∧ h'.maps = h.maps ∧
      sliceElems h' s' = sliceElems h u.Tags ++ [tag] ∧ s'.WF h' := by
  obtain ⟨h1, s1, happ, hmaps, husers, helems, -, hwf1, -⟩ := goAppend_spec grow h u.Tags tag hwf.1
  refine ⟨_, s1, AddTagByPointer_eq grow h h1 a u tag s1 hu ha happ husers, ?_, hmaps, helems, hwf1⟩
  rw [husers]
  exact load_set h a _ _ _ ha

theorem AddMetaByPointer_result (h : Heap) (a : Nat) (u : User) (key value : String)
    (hu : h.users[a]? = some u) (ha : a < h.users.length) (hwf : u.WF h) :
    ∃ h' m, AddMetaByPointer h (some a) key value = .ok h' ∧
      load h' (some a) = .ok { u with Meta := some m } ∧ h'.arrays = h.arrays ∧
      m < h'.maps.length ∧
      h'.maps[m]? = some (mapInsert key value (metaEntries h u.Meta)) := by
  cases hm : u.Meta with
  | none =>
    refine ⟨_, h.maps.length, AddMetaByPointer_nil h a u key value hu ha hm,
      load_set h a _ _ _ ha, rfl, by simp, ?_⟩
    simp [metaEntries, mapInsert]
  | some m =>
    have hlt : m < h.maps.length := by
      have := hwf.2
      rw [hm] at this
      exact this.1
    have hsame : ({ u with Meta := some m } : User) = u := by
      cases u
      simp only at hm
      subst hm
      rfl
    refine ⟨_, m, AddMetaByPointer_some h a u key value m hu hm hlt, ?_, rfl, by simpa using hlt, ?_⟩
    · rw [hsame]
      simp [load, hu]
    · simp [metaEntries, hlt]

theorem load_ok_iff (h : Heap) (a : Nat) (u : User) :
    load h (some a) = .ok u ↔ h.users[a]? = some u := by
  cases hu : h.users[a]? with
  | none => simp [load, hu]
  | some v => simp [load, hu]

theorem nodup_metaEntries (h : Heap) (u : User) (hwf : u.WF h) :
    ((metaEntries h u.Meta).map Prod.fst).Nodup := by
  have hmeta := hwf.2
  cases hm : u.Meta with
  | none => simp [metaEntries]
  | some m =>
    rw [hm] at hmeta
    exact hmeta.2

/-- C1, as stated, fails: on a record whose `Meta` is already allocated,
`AddMetaByValue` inserts into the map object the copy shares with the original,
so the caller observes a record with a new `Meta` entry. -/
theorem AddMetaByValue_leaks_on_allocated_meta :
    User.WF sampleHeap sampleUser ∧
      observe sampleHeap sampleUser = ⟨7, "Dana", ["go"], some [("team", "core")]⟩ ∧
      ∃ h', AddMetaByValue sampleHeap sampleUser "role" "admin" = .ok h' ∧
        observe h' sampleUser =
          ⟨7, "Dana", ["go"], some [("team", "core"), ("role", "admin")]⟩ ∧
        observe h' sampleUser ≠ observe sampleHeap sampleUser := by
  refine ⟨sample_pointsTo.2, rfl, _, rfl, rfl, ?_⟩
  decide

/-- C1 (amended): for every well-formed record `u`, `RenameByValue` and
`AddTagByValue` leave the caller's record field-for-field as it was, and no
variable of the caller is written.  `AddMetaByValue` leaves `ID`, `Name` and
`Tags` as they were, and leaves `Meta` as it was when `Meta` was absent or
already mapped `key` to `value`. -/
theorem byValue_frame (grow : Nat → Nat) (h : Heap) (u : User) (name tag key value : String)
    (hwf : u.WF h) :
    (∃ h', RenameByValue h u name = .ok h' ∧ h'.users = h.users ∧
      observe h' u = observe h u) ∧
    (∃ h', AddTagByValue grow h u tag = .ok h' ∧ h'.users = h.users ∧
      observe h' u = observe h u) ∧
    (∃ h', AddMetaByValue h u key value = .ok h' ∧ h'.users = h.users ∧
      (observe h' u).ID = (observe h u).ID ∧ (observe h' u).Name = (observe h u).Name ∧
      (observe h' u).Tags = (observe h u).Tags ∧
      (u.Meta = none ∨ metaLookup h u key = some value → observe h' u = observe h u)) := by
  refine ⟨⟨h, rfl, rfl, rfl⟩, ?_, ?_⟩
  · obtain ⟨h1, s1, happ, hmaps, husers, -, hsame, -, -⟩ := goAppend_spec grow h u.Tags tag hwf.1
    refine ⟨h1, (AddTagByValue_eq grow h h1 u tag s1 happ).2, husers, ?_⟩
    simp [observe, hmaps, hsame]
  · cases hm : u.Meta with
    | none =>
      refine ⟨_, (AddMetaByValue_nil h u key value hm).2, rfl, rfl, rfl, rfl, fun _ => ?_⟩
      simp [observe, sliceElems, hm]
    | some m =>
      have hlt : m < h.maps.length := by
        have := hwf.2
        rw [hm] at this
        exact this.1
      refine ⟨_, (AddMetaByValue_some h u key value m hm hlt).2, rfl, rfl, rfl, rfl, fun hc => ?_⟩
      rcases hc with hc | hc
      · cases hc
      · rw [metaLookup_some h u m key hm hlt] at hc
        rw [mapInsert_of_lookup key value _ hc, set_getElem_same _ _ hlt]

/-- Witness of C1 (amended) on a record with spare capacity in `Tags` and an
allocated `Meta` that already maps the key to the value. -/
theorem byValue_frame_witness :
    User.WF sampleHeap sampleUser ∧
    (∃ h', RenameByValue sampleHeap sampleUser "Bob" = .ok h' ∧ h'.users = sampleHeap.users ∧
      observe h' sampleUser = observe sampleHeap sampleUser) ∧
    (∃ h', AddTagByValue id sampleHeap sampleUser "golang" = .ok h' ∧
      h'.users = sampleHeap.users ∧ observe h' sampleUser = observe sampleHeap sampleUser) ∧
    (∃ h', AddMetaByValue sampleHeap sampleUser "team" "core" = .ok h' ∧
      h'.users = sampleHeap.users ∧
      (observe h' sampleUser).ID = (observe sampleHeap sampleUser).ID ∧
      (observe h' sampleUser).Name = (observe sampleHeap sampleUser).Name ∧
      (observe h' sampleUser).Tags = (observe sampleHeap sampleUser).Tags ∧
      (sampleUser.Meta = none ∨ metaLookup sampleHeap sampleUser "team" = some "core" →
        observe h' sampleUser = observe sampleHeap sampleUser)) :=
  ⟨sample_pointsTo.2,
    byValue_frame id sampleHeap sampleUser "Bob" "golang" "team" "core" sample_pointsTo.2⟩

/-- C2: for every well-formed record behind a valid pointer, `RenameByPointer`
returns, the record then has `Name = name`, and its `ID`, `Tags` and `Meta` are
what they were. -/
theorem RenameByPointer_sets_name (h : Heap) (p : Option Nat) (u : User) (name : String)
    (hp : PointsTo h p u) :
    ∃ h' u', RenameByPointer h p name = .ok h' ∧ load h' p = .ok u' ∧
      (observe h' u').Name = name ∧ (observe h' u').ID = (observe h u).ID ∧
      (observe h' u').Tags = (observe h u).Tags ∧
      (observe h' u').Meta = (observe h u).Meta := by
  obtain ⟨a, rfl, hu, ha, -⟩ := pointsTo_addr hp
  exact ⟨_, { u with Name := name }, RenameByPointer_eq h a u name hu ha,
    load_set h a _ _ _ ha, rfl, rfl, rfl, rfl⟩

/-- Witness of C2 on the sample record. -/
theorem RenameByPointer_sets_name_witness :
    PointsTo sampleHeap (some 0) sampleUser ∧
    ∃ h' u', RenameByPointer sampleHeap (some 0) "Charlie" = .ok h' ∧
      load h' (some 0) = .ok u' ∧
      (observe h' u').Name = "Charlie" ∧ (observe h' u').ID = (observe sampleHeap sampleUser).ID ∧
      (observe h' u').Tags = (observe sampleHeap sampleUser).Tags ∧
      (observe h' u').Meta = (observe sampleHeap sampleUser).Meta :=
  ⟨sample_pointsTo, RenameByPointer_sets_name sampleHeap (some 0) sampleUser "Charlie"
    sample_pointsTo⟩

/-- C3: for every well-formed record behind a valid pointer, `AddTagByPointer`
returns, the record's `Tags` is then the previous sequence with `tag` appended
as last element (one element longer), and `ID`, `Name` and `Meta` are what they
were. -/
theorem AddTagByPointer_appends (grow : Nat → Nat) (h : Heap) (p : Option Nat) (u : User)
    (tag : String) (hp : PointsTo h p u) :
    ∃ h' u', AddTagByPointer grow h p tag = .ok h' ∧ load h' p = .ok u' ∧
      (observe h' u').Tags = (observe h u).Tags ++ [tag] ∧
      (observe h' u').Tags.length = (observe h u).Tags.length + 1 ∧
      (observe h' u').ID = (observe h u).ID ∧ (observe h' u').Name = (observe h u).Name ∧
      (observe h' u').Meta = (observe h u).Meta := by
  obtain ⟨a, rfl, hu, ha, hwf⟩ := pointsTo_addr hp
  obtain ⟨h', s', hrun, hload, hmaps, helems, -⟩ := AddTagByPointer_result grow h a u tag hu ha hwf
  refine ⟨h', _, hrun, hload, helems, ?_, rfl, rfl, ?_⟩
  · show (sliceElems h' s').length = (sliceElems h u.Tags).length + 1
    rw [helems]
    simp
  · simp [observe, hmaps]

/-- Witness of C3 on the sample record, whose slice has spare capacity. -/
theorem AddTagByPointer_appends_witness :
    PointsTo sampleHeap (some 0) sampleUser ∧
    ∃ h' u', AddTagByPointer id sampleHeap (some 0) "programmer" = .ok h' ∧
      load h' (some 0) = .ok u' ∧
      (observe h' u').Tags = (observe sampleHeap sampleUser).Tags ++ ["programmer"] ∧
      (observe h' u').Tags.length = (observe sampleHeap sampleUser).Tags.length + 1 ∧
      (observe h' u').ID = (observe sampleHeap sampleUser).ID ∧
      (observe h' u').Name = (observe sampleHeap sampleUser).Name ∧
      (observe h' u').Meta = (observe sampleHeap sampleUser).Meta :=
  ⟨sample_pointsTo, AddTagByPointer_appends id sampleHeap (some 0) sampleUser "programmer"
    sample_pointsTo⟩

/-- C4: for every well-formed record behind a valid pointer, `AddMetaByPointer`
returns, the record's `Meta` is then allocated, its entries are the previous
entries (none for an absent `Meta`) with `key` assigned `value`: `key` maps to
`value`, every other key maps as before, and from an absent `Meta` the result
is the single entry; `ID`, `Name` and `Tags` are what they were. -/
theorem AddMetaByPointer_inserts (h : Heap) (p : Option Nat) (u : User) (key value : String)
    (hp : PointsTo h p u) :
    ∃ h' u' m, AddMetaByPointer h p key value = .ok h' ∧ load h' p = .ok u' ∧
      u'.Meta = some m ∧ m < h'.maps.length ∧
      (observe h' u').Meta = some (mapInsert key value (metaEntries h u.Meta)) ∧
      metaLookup h' u' key = some value ∧
      (∀ k, k ≠ key → metaLookup h' u' k = metaLookup h u k) ∧
      (u.Meta = none → (observe h' u').Meta = some [(key, value)]) ∧
      (observe h' u').ID = (observe h u).ID ∧ (observe h' u').Name = (observe h u).Name ∧
      (observe h' u').Tags = (observe h u).Tags := by
  obtain ⟨a, rfl, hu, ha, hwf⟩ := pointsTo_addr hp
  obtain ⟨h', m, hrun, hload, harr, hlt, hget⟩ :=
    AddMetaByPointer_result h a u key value hu ha hwf
  have hobs : (observe h' { u with Meta := some m }).Meta =
      some (mapInsert key value (metaEntries h u.Meta)) := by
    simp [observe, hget]
  have hlook : ∀ k, metaLookup h' { u with Meta := some m } k =
      mapLookup k (mapInsert key value (metaEntries h u.Meta)) := by
    intro k
    simp [metaLookup, metaEntries, hget]
  refine ⟨h', _, m, hrun, hload, rfl, hlt, hobs, ?_, ?_, ?_, rfl, rfl, ?_⟩
  · rw [hlook]
    exact mapLookup_mapInsert_self _ _ _
  · intro k hk
    rw [hlook]
    exact mapLookup_mapInsert_ne _ _ _ _ hk
  · intro hnil
    rw [hobs, hnil]
    rfl
  · simp [observe, sliceElems, harr]

/-- Witness of C4 on the record `main` starts from, whose `Meta` is absent. -/
theorem AddMetaByPointer_inserts_witness :
    PointsTo initHeap userAddr aliceUser ∧
    ∃ h' u' m, AddMetaByPointer initHeap userAddr "department" "engineering" = .ok h' ∧
      load h' userAddr = .ok u' ∧ u'.Meta = some m ∧ m < h'.maps.length ∧
      (observe h' u').Meta =
        some (mapInsert "department" "engineering" (metaEntries initHeap aliceUser.Meta)) ∧
      metaLookup h' u' "department" = some "engineering" ∧
      (∀ k, k ≠ "department" → metaLookup h' u' k = metaLookup initHeap aliceUser k) ∧
      (aliceUser.Meta = none → (observe h' u').Meta = some [("department", "engineering")]) ∧
      (observe h' u').ID = (observe initHeap aliceUser).ID ∧
      (observe h' u').Name = (observe initHeap aliceUser).Name ∧
      (observe h' u').Tags = (observe initHeap aliceUser).Tags :=
  ⟨alice_pointsTo, AddMetaByPointer_inserts initHeap userAddr aliceUser "department"
    "engineering" alice_pointsTo⟩

/-- C5: the fixed sequence of `main` runs without fault for every growth policy
of `append`, and the seven states it prints are: the initial record; the same
after `RenameByValue`; `Name = "Charlie"` after `RenameByPointer`; the same
after `AddTagByValue`; `Tags = ["programmer"]` after `AddTagByPointer`; the
same, `Meta` still absent, after `AddMetaByValue`; and finally `ID = 1`,
`Name = "Charlie"`, `Tags = ["programmer"]` and the single `Meta` entry
`"department" ↦ "engineering"`. -/
theorem main_states (grow : Nat → Nat) :
    main grow = .ok
      [⟨1, "Alice", [], none⟩,
       ⟨1, "Alice", [], none⟩,
       ⟨1, "Charlie", [], none⟩,
       ⟨1, "Charlie", [], none⟩,
       ⟨1, "Charlie", ["programmer"], none⟩,
       ⟨1, "Charlie", ["programmer"], none⟩,
       ⟨1, "Charlie", ["programmer"], some [("department", "engineering")]⟩] := by
  simp [main, initHeap, userAddr, nilSlice, load, store, RenameByValue, RenameByValueLocal,
    RenameByPointer, AddTagByValue, AddTagByValueLocal, AddTagByPointer, AddMetaByValue,
    AddMetaByValueLocal, AddMetaByPointer, ensureMetaLocal, ensureMetaPtr, makeMap, mapAssign,
    mapInsert, goAppend, sliceElems, observe, bind, Except.bind, pure, Except.pure, Except.map]

/-- C6: for every well-formed record behind a valid pointer, `AddMetaByPointer`
returns a state on which the same call returns that very state again; in it
`key` maps to `value` and the keys of `Meta` are pairwise distinct (`key`
occurs once). -/
theorem AddMetaByPointer_idempotent (h : Heap) (p : Option Nat) (u : User) (key value : String)
    (hp : PointsTo h p u) :
    ∃ h1 u1, AddMetaByPointer h p key value = .ok h1 ∧
      AddMetaByPointer h1 p key value = .ok h1 ∧ load h1 p = .ok u1 ∧
      metaLookup h1 u1 key = some value ∧
      ((metaEntries h1 u1.Meta).map Prod.fst).Nodup ∧
      ((metaEntries h1 u1.Meta).map Prod.fst).count key = 1 := by
  obtain ⟨a, rfl, hu, ha, hwf⟩ := pointsTo_addr hp
  obtain ⟨h1, m, hrun, hload, -, hlt, hget⟩ := AddMetaByPointer_result h a u key value hu ha hwf
  have hu1 := (load_ok_iff h1 a _).1 hload
  have hgetElem : h1.maps[m] = mapInsert key value (metaEntries h u.Meta) := by
    rw [List.getElem?_eq_getElem hlt] at hget
    exact Option.some.inj hget
  have hentries : metaEntries h1 (some m) = mapInsert key value (metaEntries h u.Meta) := by
    simp [metaEntries, hget]
  have hnodup : ((metaEntries h1 (some m)).map Prod.fst).Nodup := by
    rw [hentries]
    exact nodup_keys_mapInsert key value _ (nodup_metaEntries h u hwf)
  refine ⟨h1, _, hrun, ?_, hload, ?_, hnodup, ?_⟩
  · rw [AddMetaByPointer_some h1 a _ key value m hu1 rfl hlt, hgetElem, mapInsert_idem,
      ← hgetElem, set_getElem_same _ _ hlt]
  · show mapLookup key (metaEntries h1 (some m)) = some value
    rw [hentries]
    exact mapLookup_mapInsert_self _ _ _
  · apply List.count_eq_one_of_mem hnodup
    rw [hentries, mem_keys_mapInsert]
    exact Or.inl rfl

/-- Witness of C6 on the sample record, whose `Meta` is allocated. -/
theorem AddMetaByPointer_idempotent_witness :
    PointsTo sampleHeap (some 0) sampleUser ∧
    ∃ h1 u1, AddMetaByPointer sampleHeap (some 0) "role" "admin" = .ok h1 ∧
      AddMetaByPointer h1 (some 0) "role" "admin" = .ok h1 ∧ load h1 (some 0) = .ok u1 ∧
      metaLookup h1 u1 "role" = some "admin" ∧
      ((metaEntries h1 u1.Meta).map Prod.fst).Nodup ∧
      ((metaEntries h1 u1.Meta).map Prod.fst).count "role" = 1 :=
  ⟨sample_pointsTo, AddMetaByPointer_idempotent sampleHeap (some 0) sampleUser "role" "admin"
    sample_pointsTo⟩

/-- C7, as stated, fails when the two keys coincide: from the record `main`
starts from, `AddMetaByValue` with `"role"`, `"admin"` followed by
`AddMetaByPointer` with `"role"`, `"owner"` leaves the single entry
`"role" ↦ "owner"`, so the `Meta` of the caller does hold `key`. -/
theorem AddMetaByValue_nil_then_pointer_same_key :
    (PointsTo initHeap userAddr aliceUser ∧ aliceUser.Meta = none) ∧
    ∃ h1 h2 u2, AddMetaByValue initHeap aliceUser "role" "admin" = .ok h1 ∧
      AddMetaByPointer h1 userAddr "role" "owner" = .ok h2 ∧ load h2 userAddr = .ok u2 ∧
      (observe h2 u2).Meta = some [("role", "owner")] ∧
      metaLookup h2 u2 "role" = some "owner" ∧ metaLookup h2 u2 "role" ≠ none := by
  refine ⟨⟨alice_pointsTo, rfl⟩, _, _, _, rfl, rfl, rfl, rfl, ?_, ?_⟩ <;>
    simp [metaLookup, metaEntries, mapLookup]

/-- C7 (amended): for every well-formed record with absent `Meta`,
`AddMetaByValue` allocates the map on its own copy only: the copy ends with the
single entry `key ↦ value`, the caller's record is as it was, `Meta` absent
with no entry.  A following `AddMetaByPointer` with `k2`, `v2` gives the
caller's record a `Meta` with exactly the one entry `k2 ↦ v2`; `key`, when
different from `k2`, is not in it. -/
theorem AddMetaByValue_nil_then_pointer (h : Heap) (p : Option Nat) (u : User)
    (key value k2 v2 : String) (hp : PointsTo h p u) (hnil : u.Meta = none) :
    ∃ h1 uL h2 u2, AddMetaByValueLocal h u key value = .ok (h1, uL) ∧
      AddMetaByValue h u key value = .ok h1 ∧
      (observe h1 uL).Meta = some [(key, value)] ∧
      load h1 p = .ok u ∧ observe h1 u = observe h u ∧ (observe h1 u).Meta = none ∧
      metaEntries h1 u.Meta = [] ∧
      AddMetaByPointer h1 p k2 v2 = .ok h2 ∧ load h2 p = .ok u2 ∧
      (observe h2 u2).Meta = some [(k2, v2)] ∧
      (key ≠ k2 → metaLookup h2 u2 key = none) := by
  obtain ⟨a, rfl, hu, ha, hwf⟩ := pointsTo_addr hp
  have hval := AddMetaByValue_nil h u key value hnil
  have hu1 : ({ h with maps := h.maps ++ [[(key, value)]] } : Heap).users[a]? = some u := hu
  refine ⟨_, _, _, _, hval.1, hval.2, ?_, (load_ok_iff _ a u).2 hu1, ?_, ?_, ?_,
    AddMetaByPointer_nil _ a u k2 v2 hu1 ha hnil, load_set h a _ _ _ ha, ?_, ?_⟩
  · simp [observe]
  · simp [observe, sliceElems, hnil]
  · simp [observe, hnil]
  · simp [metaEntries, hnil]
  · simp [observe, getElem_append_two]
  · intro hne
    simp [metaLookup, metaEntries, mapLookup, getElem_append_two, Ne.symm hne]

/-- Witness of C7 on the record `main` starts from. -/
theorem AddMetaByValue_nil_then_pointer_witness :
    (PointsTo initHeap userAddr aliceUser ∧ aliceUser.Meta = none) ∧
    ∃ h1 uL h2 u2, AddMetaByValueLocal initHeap aliceUser "role" "admin" = .ok (h1, uL) ∧
      AddMetaByValue initHeap aliceUser "role" "admin" = .ok h1 ∧
      (observe h1 uL).Meta = some [("role", "admin")] ∧
      load h1 userAddr = .ok aliceUser ∧ observe h1 aliceUser = observe initHeap aliceUser ∧
      (observe h1 aliceUser).Meta = none ∧ metaEntries h1 aliceUser.Meta = [] ∧
      AddMetaByPointer h1 userAddr "department" "engineering" = .ok h2 ∧
      load h2 userAddr = .ok u2 ∧
      (observe h2 u2).Meta = some [("department", "engineering")] ∧
      ("role" ≠ "department" → metaLookup h2 u2 "role" = none) :=
  ⟨⟨alice_pointsTo, rfl⟩, AddMetaByValue_nil_then_pointer initHeap userAddr aliceUser "role"
    "admin" "department" "engineering" alice_pointsTo rfl⟩

/-- C10: for every well-formed record whose `Meta` is allocated,
`AddMetaByValue` returns with the copy holding the same map reference, and the
caller's record then maps `key` to `value`: its entries are the previous ones
with `key` assigned `value`, so the caller's record differs from what it was
whenever it did not already map `key` to `value`. -/
theorem AddMetaByValue_visible_on_allocated_meta (h : Heap) (u : User) (m : Nat)
    (key value : String) (hwf : u.WF h) (hm : u.Meta = some m) :
    ∃ h', AddMetaByValueLocal h u key value = .ok (h', u) ∧
      AddMetaByValue h u key value = .ok h' ∧ h'.users = h.users ∧
      metaLookup h' u key = some value ∧
      (observe h' u).Meta = some (mapInsert key value (metaEntries h u.Meta)) ∧
      (metaLookup h u key ≠ some value → observe h' u ≠ observe h u) := by
  have hlt : m < h.maps.length := by
    have := hwf.2
    rw [hm] at this
    exact this.1
  have hval := AddMetaByValue_some h u key value m hm hlt
  have hobs : (observe { h with maps := h.maps.set m (mapInsert key value h.maps[m]) } u).Meta =
      some (mapInsert key value (metaEntries h u.Meta)) := by
    simp [observe, metaEntries, hm, hlt]
  refine ⟨_, hval.1, hval.2, rfl, ?_, hobs, ?_⟩
  · simp [metaLookup, metaEntries, hm, hlt, mapLookup_mapInsert_self]
  · intro hne heq
    have hmeta := congrArg Observed.Meta heq
    rw [hobs] at hmeta
    have hold : (observe h u).Meta = some (metaEntries h u.Meta) := by
      simp [observe, metaEntries, hm]
    rw [hold] at hmeta
    exact mapInsert_ne_of_lookup key value _ hne (Option.some.inj hmeta)

/-- Witness of C10 on the sample record with a key it does not hold. -/
theorem AddMetaByValue_visible_on_allocated_meta_witness :
    (User.WF sampleHeap sampleUser ∧ sampleUser.Meta = some 0) ∧
    ∃ h', AddMetaByValueLocal sampleHeap sampleUser "role" "admin" = .ok (h', sampleUser) ∧
      AddMetaByValue sampleHeap sampleUser "role" "admin" = .ok h' ∧
      h'.users = sampleHeap.users ∧
      metaLookup h' sampleUser "role" = some "admin" ∧
      (observe h' sampleUser).Meta =
        some (mapInsert "role" "admin" (metaEntries sampleHeap sampleUser.Meta)) ∧
      (metaLookup sampleHeap sampleUser "role" ≠ some "admin" →
        observe h' sampleUser ≠ observe sampleHeap sampleUser) :=
  ⟨⟨sample_pointsTo.2, rfl⟩, AddMetaByValue_visible_on_allocated_meta sampleHeap sampleUser 0
    "role" "admin" sample_pointsTo.2 rfl⟩

/-- The faults of the model are reachable outside the well-formed inputs: a
by-pointer operation on the nil pointer and an assignment through the nil map
both fail. -/
theorem faults_on_nil (h : Heap) (name key value : String) :
    RenameByPointer h none name = .error .nilDeref ∧
      AddMetaByPointer h none key value = .error .nilDeref ∧
      mapAssign h none key value = .error .nilMapWrite :=
  ⟨rfl, rfl, rfl⟩

/-- On the sample record the append of `AddTagByValue` lands in the backing
array shared with the caller (cell 1), outside the caller's length, and the
append of `AddTagByPointer` then overwrites that cell. -/
theorem sample_append_shares_array :
    (AddTagByValue id sampleHeap sampleUser "golang").map Heap.arrays =
        .ok [["go", "golang", ""]] ∧
      ((AddTagByValue id sampleHeap sampleUser "golang").bind fun h1 =>
          AddTagByPointer id h1 (some 0) "programmer").map Heap.arrays =
        .ok [["go", "programmer", ""]] := by
  constructor <;> rfl

end TryGo
